import Mathlib

/-!
Verification of the `KeyBindings` store (src/src/lib/keyBindings/index.js).

The development shallowly embeds the class: JavaScript values are `JVal`,
a binding mapping (a plain JS object) is an insertion-ordered association
list `Doc`, the listener registry `#on` is an association list from event
names to listener identifiers, and the persisted file is `World`.  Listener
callbacks are represented by natural-number identifiers together with an
effect function `Eff` describing how an invocation mutates the registry.
The editor command table is the truthiness function `Cmds`, and the
`applyBindings` editor-sync step — including its in-place legacy `key` to
`bindKey` normalization of descriptors held in the mapping — acts on the
store through it.  Every operation returns the new state together with a
trace of observable events `Ev`.
-/

mutual
inductive JVal where
  | undefined : JVal
  | null : JVal
  | bool : Bool → JVal
  | num : Int → JVal
  | str : String → JVal
  | obj : JFields → JVal
deriving Repr
inductive JFields where
  | nil : JFields
  | cons : String → JVal → JFields → JFields
deriving Repr
end

deriving instance DecidableEq for JVal
deriving instance DecidableEq for JFields

/-- JavaScript `typeof` on an embedded value (`typeof null` is "object"). -/
def jtypeof : JVal → String
  | .undefined => "undefined"
  | .null => "object"
  | .bool _ => "boolean"
  | .num _ => "number"
  | .str _ => "string"
  | .obj _ => "object"

/-- JavaScript truthiness of an embedded value. -/
def truthy : JVal → Bool
  | .undefined => false
  | .null => false
  | .bool b => b
  | .num n => decide (n ≠ 0)
  | .str s => decide (s ≠ "")
  | .obj _ => true

/-- A binding mapping: a JS object as an insertion-ordered association list. -/
abbrev Doc := List (String × JVal)

/-- Property lookup on a mapping (`key in obj` / `obj[key]` support). -/
def lookupDoc (d : Doc) (k : String) : Option JVal :=
  match d with
  | [] => none
  | (k₁, v) :: rest => if k₁ = k then some v else lookupDoc rest k

/-- JS member read `d[k]`: an absent key reads as `undefined`. -/
def getKey (d : Doc) (k : String) : JVal :=
  (lookupDoc d k).getD .undefined

/-- JS member write `d[k] = v`: overwrite the slot of the key in place when the
key is present, otherwise append the new property at the end. -/
def setKey (d : Doc) (k : String) (v : JVal) : Doc :=
  match d with
  | [] => [(k, v)]
  | (k₁, v₁) :: rest =>
      if k₁ = k then (k, v) :: rest else (k₁, v₁) :: setKey rest k v

/-- The keys of a mapping, in iteration order. -/
def keysOf (d : Doc) : List String :=
  d.map Prod.fst

/-- View an association list as the field list of a JS object value. -/
def JFields.ofList : Doc → JFields
  | [] => .nil
  | (k, v) :: rest => .cons k v (JFields.ofList rest)

/-- JS member write on the fields of an object value. -/
def JFields.set (fs : JFields) (k : String) (v : JVal) : JFields :=
  match fs with
  | .nil => .cons k v .nil
  | .cons k₁ v₁ rest =>
      if k₁ = k then .cons k v rest else .cons k₁ v₁ (JFields.set rest k v)

/-- JS member write `x[k] = v` on an arbitrary value: only object values
change (property writes on primitives are dropped). -/
def setKeyJ (x : JVal) (k : String) (v : JVal) : JVal :=
  match x with
  | .obj fs => .obj (fs.set k v)
  | other => other

/-- Field read on the fields of an object value; absent reads `undefined`. -/
def JFields.get (fs : JFields) (k : String) : JVal :=
  match fs with
  | .nil => .undefined
  | .cons k₁ v rest => if k₁ = k then v else JFields.get rest k

/-- JS `delete obj[k]`: remove the property, keeping the other fields in
order. -/
def JFields.erase (fs : JFields) (k : String) : JFields :=
  match fs with
  | .nil => .nil
  | .cons k₁ v rest =>
      if k₁ = k then rest else .cons k₁ v (JFields.erase rest k)

/-- JS member read `x?.k` / `x.k`: only object values yield a property;
anything else reads as `undefined`. -/
def getProp (x : JVal) (k : String) : JVal :=
  match x with
  | .obj fs => fs.get k
  | _ => .undefined

/-- The listener registry `#on`: event name to ordered listener ids.
A missing entry models a field that was never created. -/
abbrev Registry := List (String × List Nat)

def lookupReg (r : Registry) (e : String) : Option (List Nat) :=
  match r with
  | [] => none
  | (e₁, l) :: rest => if e₁ = e then some l else lookupReg rest e

def setReg (r : Registry) (e : String) (l : List Nat) : Registry :=
  match r with
  | [] => [(e, l)]
  | (e₁, l₁) :: rest =>
      if e₁ = e then (e, l) :: rest else (e₁, l₁) :: setReg rest e l

/-- How a listener invocation mutates the registry (callbacks may call
`on`/`off`; no other store mutation is modelled). -/
abbrev Eff := Nat → Registry → Registry

/-- The state of the `KeyBindings` singleton. -/
structure Store where
  initDone : Bool
  onEvents : Registry
  defaultKeyBindings : Doc
  value : Doc
  oldKeyBindings : Option Doc
deriving Repr

/-- The store as constructed at module load: `value` is a deep copy of the
defaults, `#oldKeyBindings` is undefined, `#on` holds the three built-in
event lists. -/
def freshStore (defaults : Doc) : Store :=
  { initDone := false
    onEvents := [("update", []), ("update:after", []), ("reset", [])]
    defaultKeyBindings := defaults
    value := defaults
    oldKeyBindings := none }

/-- The persisted file: `none` when it does not exist, otherwise the parsed
JSON document. -/
abbrev World := Option JVal

/-- Observable events of one call, in order: a listener invocation from the
first (pre-save) dispatch loop, one from the second (post-save) loop, the
save step, the toast, the `applyBindings` call with the changed keys, and a
`reset` listener invocation. -/
inductive Ev where
  | invoke (id : Nat) (key : String) (v : JVal)
  | invokeAfter (id : Nat) (key : String) (v : JVal)
  | saved
  | toasted
  | applied (keys : List String)
  | resetCb (id : Nat)
deriving DecidableEq, Repr

/-- Modelled from the spec: `helpers.areEqual` (utils/helpers is not under
src/); per the spec, object-shaped values are compared by structural
equality, which on the embedding is equality of the representation. -/
def areEqual (a b : JVal) : Bool :=
  a == b

/-- The per-key test of `#getChangedKeys`: the baseline value `v` for key
`k` is compared with `this.value[k]`; `typeof v === "object"` selects the
`helpers.areEqual` branch, otherwise strict inequality is used. -/
def changedP (cur : Doc) (k : String) (v : JVal) : Bool :=
  if jtypeof v = "object" then !(areEqual v (getKey cur k))
  else !(v == getKey cur k)

/-- `#getChangedKeys`: no baseline yields no changes; otherwise every key of
the baseline whose value differs from the current one, in baseline key
order. -/
def getChangedKeys (s : Store) : List String :=
  match s.oldKeyBindings with
  | none => []
  | some old => (keysOf old).filter (fun k => changedP s.value k (getKey old k))

/-- The patch loop of `update`: for each key of the patch in order, if the
key exists in `value` (`key in this.value`), overwrite it. -/
def applyPatch (value : Doc) (patch : Doc) : Doc :=
  patch.foldl
    (fun acc p => if (lookupDoc acc p.1).isSome then setKey acc p.1 p.2 else acc)
    value

/-- The editor collaborator at the boundary `applyBindings` uses: whether
`commands.byName[key]` holds a (truthy) registered command record. -/
abbrev Cmds := String → Bool

/-- An editor with no registered commands. -/
def noCmds : Cmds := fun _ => false

/-- An editor with a command registered under every name. -/
def allCmds : Cmds := fun _ => true

/-- The legacy-shape normalization of `applyBindings`: the descriptor gets
`bindKey = {win: <its key field>}` written onto it and its `key` property
deleted — in place, through the alias held in the mapping. -/
def normalizeShortcut (v : JVal) : JVal :=
  match v with
  | .obj fs =>
      .obj ((fs.set "bindKey" (JVal.obj (.cons "win" (fs.get "key") .nil))).erase "key")
  | other => other

/-- One key of `applyBindings`: read `this.value[key]` and the command by
that name; if either is missing or falsy, skip; if the descriptor carries a
truthy legacy `key` field, normalize it in place (this mutates the
mapping); the merged record then goes to `commands.addCommand`, an editor
effect outside the store. -/
def applyBindingsStep (cmds : Cmds) (value : Doc) (k : String) : Doc :=
  let shortcut := getKey value k
  if cmds k = false ∨ truthy shortcut = false then value
  else if truthy (getProp shortcut "key") then
    setKey value k (normalizeShortcut shortcut)
  else value

/-- `applyBindings(...keys)` as it acts on the store state: each key in
order is looked up and, when needed, its descriptor normalized in place. -/
def applyBindings (cmds : Cmds) (keys : List String) (value : Doc) : Doc :=
  keys.foldl (applyBindingsStep cmds) value

/-- `forEach(listener => listener(arg))` over a JS array of callbacks: each
invocation may mutate the registry through its effect, and is recorded as
the event `mk id`. -/
def invokeAll (eff : Eff) (mk : Nat → Ev) (ids : List Nat) (r : Registry) :
    Registry × List Ev :=
  match ids with
  | [] => (r, [])
  | id :: rest =>
      let iv := invokeAll eff mk rest (eff id r)
      (iv.1, mk id :: iv.2)

/-- The registry event name read for key `k` in the first (`phase = true`,
`update:<key>`) or second (`phase = false`, `update:<key>:after`) dispatch
loop. -/
def evName (phase : Bool) (k : String) : String :=
  if phase then "update:" ++ k else "update:" ++ k ++ ":after"

/-- The trace entry for listener `id` invoked for key `k` with the current
value of the key, in the first or second dispatch loop. -/
def mkEv (phase : Bool) (value : Doc) (k : String) (id : Nat) : Ev :=
  if phase then .invoke id k (getKey value k)
  else .invokeAfter id k (getKey value k)

/-- One dispatch loop of `update` over the changed keys.  `phase = true` is
the first loop (events `update:<key>`, `Ev.invoke`); `phase = false` is the
second (events `update:<key>:after`, `Ev.invokeAfter`).  The accumulator
`acc` is the JS array `onupdate`/`onupdateAfter`: key-specific listeners
found by the live registry read are pushed onto it and it is then invoked
in full, so the pushed listeners persist into later keys. -/
def dispatch (eff : Eff) (phase : Bool) (value : Doc) (keys : List String)
    (acc : List Nat) (r : Registry) : Registry × List Ev :=
  match keys with
  | [] => (r, [])
  | k :: rest =>
      let acc₁ := match lookupReg r (evName phase k) with
        | some l => acc ++ l
        | none => acc
      let iv := invokeAll eff (mkEv phase value k) acc₁ r
      let d := dispatch eff phase value rest acc₁ iv.1
      (d.1, iv.2 ++ d.2)

/-- `#save`: write the serialized `value` to the file (creating it when
missing) and refresh the diff baseline `#oldKeyBindings` to a copy of
`value`. -/
def save (s : Store) (_w : World) : Store × World :=
  ({ s with oldKeyBindings := some s.value }, some (JVal.obj (JFields.ofList s.value)))

/-- The first argument of `update`: absent, a patch object, or a boolean
(which the overload check re-routes to `showToast`). -/
inductive UpdateArg where
  | none : UpdateArg
  | patch : Doc → UpdateArg
  | flag : Bool → UpdateArg

/-- The patch loop of `update` at the store level: with a patch object,
overwrite the keys that exist in `value`; with a boolean or absent first
argument, the mapping is untouched. -/
def patchStep (arg : UpdateArg) (s : Store) : Store :=
  match arg with
  | .patch d => { s with value := applyPatch s.value d }
  | _ => s

/-- The effective `showToast` flag after the boolean-overload check. -/
def toastFlag (arg : UpdateArg) (showToast : Bool) : Bool :=
  match arg with
  | .flag b => b
  | _ => showToast

/-- `update(keyBindings, showToast, saveFile)`: boolean overload, snapshot
of the generic listener lists, patch application, diff, first dispatch
loop, `applyBindings` on the changed keys (which may normalize descriptors
in the mapping in place), save, toast, second dispatch loop over the
post-`applyBindings` mapping. -/
def update (eff : Eff) (cmds : Cmds) (arg : UpdateArg) (showToast saveFile : Bool)
    (s : Store) (w : World) : Store × World × List Ev :=
  let onupdate := (lookupReg s.onEvents "update").getD []
  let onupdateAfter := (lookupReg s.onEvents "update:after").getD []
  let s₁ := patchStep arg s
  let changed := getChangedKeys s₁
  let d₁ := dispatch eff true s₁.value changed onupdate s₁.onEvents
  let s₂ := { s₁ with onEvents := d₁.1, value := applyBindings cmds changed s₁.value }
  let s₃ := if saveFile then (save s₂ w).1 else s₂
  let w₁ := if saveFile then (save s₂ w).2 else w
  let trSave : List Ev := if saveFile then [Ev.saved] else []
  let trToast : List Ev := if toastFlag arg showToast then [Ev.toasted] else []
  let d₂ := dispatch eff false s₃.value changed onupdateAfter s₃.onEvents
  ({ s₃ with onEvents := d₂.1 }, w₁,
    d₁.2 ++ [Ev.applied changed] ++ trSave ++ trToast ++ d₂.2)

/-- The mapping-restore step of `reset`: with no key arguments replace the
whole mapping by a copy of the defaults, otherwise overwrite only the named
keys that exist in the defaults (unknown keys skipped). -/
def resetStep (keys : List String) (s : Store) : Store :=
  if keys.isEmpty then { s with value := s.defaultKeyBindings }
  else
    let v := keys.foldl
      (fun acc k =>
        if (lookupDoc s.defaultKeyBindings k).isSome then
          setKey acc k (getKey s.defaultKeyBindings k)
        else acc)
      s.value
    { s with value := v }

/-- `reset(...keyBindings)`: restore the mapping (see `resetStep`), run
`update(false)` (toast suppressed, file saved), and fire every `reset`
listener with the full mapping. -/
def reset (eff : Eff) (cmds : Cmds) (keys : List String) (s : Store) (w : World) :
    Store × World × List Ev :=
  let u := update eff cmds (.flag false) true true (resetStep keys s) w
  let rr :=
    invokeAll eff Ev.resetCb ((lookupReg u.1.onEvents "reset").getD []) u.1.onEvents
  ({ u.1 with onEvents := rr.1 }, u.2.1, u.2.2 ++ rr.2)

/-- The schema-healing loop of `init`: for every `[key, value]` entry of the
defaults, when `value === undefined` or `typeof value` differs from
`typeof this.#defaultKeyBindings[key]`, write the default into the read
document.  (Both operands of the `typeof` comparison come from the
defaults.) -/
def heal (defaults : Doc) (doc : JVal) : JVal :=
  defaults.foldl
    (fun acc p =>
      if p.2 = JVal.undefined ∨ jtypeof p.2 ≠ jtypeof (getKey defaults p.1) then
        setKeyJ acc p.1 (getKey defaults p.1)
      else acc)
    doc

/-- `init(editor)`: a second call is a no-op; with no persisted file, save
and pin `value`/baseline to the defaults; with a file whose parsed content
is falsy, return; otherwise run the healing loop on the read document (its
result is bound to the local `keyBindings` and never used again) and
delegate to `reset()`. -/
def init (eff : Eff) (cmds : Cmds) (s : Store) (w : World) : Store × World × List Ev :=
  if s.initDone then (s, w, [])
  else
    let s₀ := { s with initDone := true }
    match w with
    | none =>
        let sv := save s₀ w
        let s₂ :=
          { sv.1 with
              value := sv.1.defaultKeyBindings
              oldKeyBindings := some sv.1.defaultKeyBindings }
        (s₂, sv.2, [])
    | some doc =>
        if truthy doc = false then (s₀, w, [])
        else
          let _healed := heal s₀.defaultKeyBindings doc
          reset eff cmds [] s₀ w

/-- `on(event, callback)`: create the list for the event when missing, then
push. -/
def onEvent (event : String) (id : Nat) (s : Store) : Store :=
  match lookupReg s.onEvents event with
  | none => { s with onEvents := setReg s.onEvents event [id] }
  | some l => { s with onEvents := setReg s.onEvents event (l ++ [id]) }

/-- `off(event, callback)`: create the list for the event when missing, then
splice out the first occurrence of the callback, if any. -/
def offEvent (event : String) (id : Nat) (s : Store) : Store :=
  match lookupReg s.onEvents event with
  | none => { s with onEvents := setReg s.onEvents event [] }
  | some l =>
      match l.indexOf? id with
      | none => s
      | some i => { s with onEvents := setReg s.onEvents event (l.eraseIdx i) }

/-- The identity effect: listeners that do not touch the registry. -/
def effId : Eff := fun _ r => r

/-- Registries that agree on every entry other than the two generic lists
snapshotted by `update`. -/
def regEquiv (r r₁ : Registry) : Prop :=
  ∀ e, e ≠ "update" → e ≠ "update:after" → lookupReg r e = lookupReg r₁ e

/-- An effect (listener behavior) that only adds to or removes from the
generic `update` and `update:after` lists. -/
def genericOnly (eff : Eff) : Prop :=
  ∀ id r e, e ≠ "update" → e ≠ "update:after" →
    lookupReg (eff id r) e = lookupReg r e

/-- A listener effect for the live-read example: listener `0` appends a new
listener `7` to the `update:c` list when invoked. -/
def liveAddEff : Eff := fun id r =>
  if id = 0 then setReg r "update:c" (((lookupReg r "update:c").getD []) ++ [7]) else r

/-- The witness effect: every invocation empties the generic `update` list
(a callback removing generic listeners mid-dispatch). -/
def killGenericEff : Eff := fun _ r => setReg r "update" []

/-- The live-read example store: keys `a` and `c` both changed, one generic
`update` listener `0`. -/
def exLiveStore : Store :=
  onEvent "update" 0
    { freshStore [("a", JVal.num 0), ("c", JVal.num 0)] with
        value := [("a", JVal.num 2), ("c", JVal.num 3)]
        oldKeyBindings := some [("a", JVal.num 1), ("c", JVal.num 1)] }

/-- The baseline of the diff example from the spec: `{a: 1, b: {x: 1}}`. -/
def exBaseline : Doc := [("a", JVal.num 1), ("b", JVal.obj (.cons "x" (JVal.num 1) .nil))]

/-- A store holding the diff example from the spec: baseline `{a: 1, b: {x: 1}}`,
current `{a: 1, b: {x: 2}}`. -/
def exDiffStore : Store :=
  { freshStore [] with
      value := [("a", JVal.num 1), ("b", JVal.obj (.cons "x" (JVal.num 2) .nil))]
      oldKeyBindings := some exBaseline }
/-- The store of the listener fan-out example: defaults/baseline with keys
`a` and `c`, current values making both keys changed, a generic `update`
listener `0` and a listener `1` registered for `update:a`. -/
def exFanoutStore : Store :=
  onEvent "update" 0 (onEvent "update:a" 1
    { freshStore [("a", JVal.num 0), ("c", JVal.num 0)] with
        value := [("a", JVal.num 2), ("c", JVal.num 3)]
        oldKeyBindings := some [("a", JVal.num 1), ("c", JVal.num 1)] })
/-- A store whose mapping drifted from the diff baseline (as after an
`update` with `persist = false`): defaults and baseline `{a: 1}`, current
`{a: 2}`. -/
def exDriftStore : Store :=
  { freshStore [("a", JVal.num 1)] with
      value := [("a", JVal.num 2)]
      oldKeyBindings := some [("a", JVal.num 1)] }
/-- A store whose mapping matches its diff baseline, defaults `{a: 1}`. -/
def exCleanStore : Store :=
  { freshStore [("a", JVal.num 1)] with oldKeyBindings := some [("a", JVal.num 1)] }


/-- Defaults whose descriptor carries a legacy `key` field, as the real
default binding list does: `{save: {key: "Ctrl-S"}}`. -/
def legacyDefaults : Doc :=
  [("save", JVal.obj (.cons "key" (JVal.str "Ctrl-S") .nil))]

/-- A store over `legacyDefaults` whose baseline differs from the defaults
(as after persisting some other binding), so a full reset has a changed
key. -/
def exLegacyStore : Store :=
  { freshStore legacyDefaults with oldKeyBindings := some [("save", JVal.num 0)] }

/-- Defaults whose descriptor carries no legacy `key` field. -/
def plainDefaults : Doc :=
  [("save", JVal.obj (.cons "description" (JVal.str "save file") .nil))]

/-- A store over `plainDefaults` with a drifted baseline, so a full reset
has a changed key but normalization finds no legacy field. -/
def exPlainStore : Store :=
  { freshStore plainDefaults with oldKeyBindings := some [("save", JVal.num 0)] }

theorem lookupDoc_isSome_iff (d : Doc) (k : String) :
    (lookupDoc d k).isSome = true ↔ k ∈ keysOf d := by
  induction d with
  | nil => simp [lookupDoc, keysOf]
  | cons p rest ih =>
      obtain ⟨k₁, v⟩ := p
      by_cases h : k₁ = k
      · subst h; simp [lookupDoc, keysOf]
      · simp [lookupDoc, keysOf, h, ih, Ne.symm h]

theorem lookupDoc_append_left_none (d₁ d₂ : Doc) (k : String)
    (h : lookupDoc d₁ k = Option.none) :
    lookupDoc (d₁ ++ d₂) k = lookupDoc d₂ k := by
  induction d₁ with
  | nil => simp
  | cons p rest ih =>
      obtain ⟨k₁, v⟩ := p
      by_cases hk : k₁ = k
      · simp [lookupDoc, hk] at h
      · simp only [lookupDoc, hk, if_false, List.cons_append] at h ⊢
        exact ih h

theorem lookupDoc_setKey_self (d : Doc) (k : String) (v : JVal) :
    lookupDoc (setKey d k v) k = some v := by
  induction d with
  | nil => simp [setKey, lookupDoc]
  | cons p rest ih =>
      obtain ⟨k₁, v₁⟩ := p
      by_cases h : k₁ = k
      · simp [setKey, h, lookupDoc]
      · simp [setKey, h, lookupDoc, ih]

theorem lookupDoc_setKey_ne (d : Doc) (k k₁ : String) (v : JVal) (h : k₁ ≠ k) :
    lookupDoc (setKey d k v) k₁ = lookupDoc d k₁ := by
  induction d with
  | nil => simp [setKey, lookupDoc, Ne.symm h]
  | cons p rest ih =>
      obtain ⟨k₂, v₂⟩ := p
      by_cases hk : k₂ = k
      · subst hk
        simp [setKey, lookupDoc, Ne.symm h, fun hf : k₂ = k₁ => h (hf ▸ rfl)]
      · by_cases hk₁ : k₂ = k₁
        · simp [setKey, hk, lookupDoc, hk₁, h]
        · simp [setKey, hk, lookupDoc, hk₁, ih]

theorem keysOf_setKey (d : Doc) (k : String) (v : JVal)
    (h : (lookupDoc d k).isSome = true) :
    keysOf (setKey d k v) = keysOf d := by
  induction d with
  | nil => simp [lookupDoc] at h
  | cons p rest ih =>
      obtain ⟨k₁, v₁⟩ := p
      by_cases hk : k₁ = k
      · subst hk; simp [setKey, keysOf]
      · simp only [lookupDoc, hk, if_false] at h
        have h₂ := ih h
        simp only [keysOf] at h₂
        simp [setKey, hk, keysOf, h₂]

theorem keysOf_applyPatch (p : Doc) : ∀ v : Doc, keysOf (applyPatch v p) = keysOf v := by
  induction p with
  | nil => intro v; rfl
  | cons q rest ih =>
      intro v
      have hstep : applyPatch v (q :: rest) =
          applyPatch (if (lookupDoc v q.1).isSome then setKey v q.1 q.2 else v) rest := rfl
      rw [hstep]
      by_cases h : (lookupDoc v q.1).isSome = true
      · rw [if_pos h, ih, keysOf_setKey v q.1 q.2 h]
      · rw [if_neg h, ih]

theorem applyPatch_unknown (p : Doc) : ∀ v : Doc,
    (∀ k, k ∈ keysOf p → lookupDoc v k = Option.none) → applyPatch v p = v := by
  induction p with
  | nil => intro v _; rfl
  | cons q rest ih =>
      intro v h
      have hq : lookupDoc v q.1 = Option.none := h q.1 (by simp [keysOf])
      have hstep : applyPatch v (q :: rest) =
          applyPatch (if (lookupDoc v q.1).isSome then setKey v q.1 q.2 else v) rest := rfl
      rw [hstep, hq]
      simp only [Option.isSome_none, Bool.false_eq_true, if_false]
      exact ih v (fun k hk => h k (by simp [keysOf]; right; simpa [keysOf] using hk))

theorem lookupDoc_applyPatch_not_mem (p : Doc) : ∀ (v : Doc) (k : String),
    k ∉ keysOf p → lookupDoc (applyPatch v p) k = lookupDoc v k := by
  induction p with
  | nil => intro v k _; rfl
  | cons q rest ih =>
      intro v k h
      have hk : k ≠ q.1 ∧ k ∉ keysOf rest := by
        constructor
        · intro hf; exact h (by simp [keysOf, hf])
        · intro hf; exact h (by simp [keysOf]; right; simpa [keysOf] using hf)
      have hstep : applyPatch v (q :: rest) =
          applyPatch (if (lookupDoc v q.1).isSome then setKey v q.1 q.2 else v) rest := rfl
      rw [hstep]
      by_cases hp : (lookupDoc v q.1).isSome = true
      · rw [if_pos hp, ih _ _ hk.2, lookupDoc_setKey_ne v q.1 k q.2 hk.1]
      · rw [if_neg hp, ih _ _ hk.2]

theorem lookupDoc_applyPatch_mem (p : Doc) : ∀ (v : Doc) (k : String),
    (keysOf p).Nodup → k ∈ keysOf p → (lookupDoc v k).isSome = true →
    lookupDoc (applyPatch v p) k = lookupDoc p k := by
  induction p with
  | nil => intro v k _ hmem _; simp [keysOf] at hmem
  | cons q rest ih =>
      intro v k hnd hmem hv
      obtain ⟨k₁, u⟩ := q
      have hstep : applyPatch v ((k₁, u) :: rest) =
          applyPatch (if (lookupDoc v k₁).isSome then setKey v k₁ u else v) rest := rfl
      have hnd₁ : k₁ ∉ keysOf rest := by
        have := hnd
        simp only [keysOf, List.map_cons, List.nodup_cons] at this
        exact fun hf => this.1 (by simpa [keysOf] using hf)
      have hndr : (keysOf rest).Nodup := by
        have := hnd
        simp only [keysOf, List.map_cons, List.nodup_cons] at this
        simpa [keysOf] using this.2
      by_cases hk : k₁ = k
      · subst hk
        rw [hstep, if_pos hv,
          lookupDoc_applyPatch_not_mem rest _ _ hnd₁, lookupDoc_setKey_self]
        simp [lookupDoc]
      · have hmem₁ : k ∈ keysOf rest := by
          rcases (by simpa [keysOf] using hmem : k = k₁ ∨ k ∈ keysOf rest) with h | h
          · exact absurd h.symm hk
          · exact h
        have hrhs : lookupDoc ((k₁, u) :: rest) k = lookupDoc rest k := by
          simp [lookupDoc, hk]
        rw [hstep, hrhs]
        by_cases hp : (lookupDoc v k₁).isSome = true
        · rw [if_pos hp]
          refine ih _ k hndr hmem₁ ?_
          rw [lookupDoc_setKey_ne v k₁ k u (Ne.symm hk)]
          exact hv
        · rw [if_neg hp]
          exact ih _ k hndr hmem₁ hv

theorem changedP_eq_bne (cur : Doc) (k : String) (v : JVal) :
    changedP cur k v = !(v == getKey cur k) := by
  unfold changedP areEqual
  split <;> rfl

theorem getChangedKeys_of_none (s : Store) (h : s.oldKeyBindings = Option.none) :
    getChangedKeys s = [] := by
  simp [getChangedKeys, h]

theorem mem_getChangedKeys (s : Store) (b : Doc) (h : s.oldKeyBindings = some b)
    (k : String) :
    k ∈ getChangedKeys s ↔ k ∈ keysOf b ∧ getKey b k ≠ getKey s.value k := by
  simp [getChangedKeys, h, List.mem_filter, changedP_eq_bne]

theorem getChangedKeys_self (s : Store) (h : s.oldKeyBindings = some s.value) :
    getChangedKeys s = [] := by
  simp only [getChangedKeys, h]
  rw [List.filter_eq_nil_iff]
  intro k _
  simp [changedP_eq_bne]

theorem invokeAll_snd (eff : Eff) (mk : Nat → Ev) (ids : List Nat) :
    ∀ r : Registry, (invokeAll eff mk ids r).2 = ids.map mk := by
  induction ids with
  | nil => intro r; rfl
  | cons id rest ih => intro r; simp [invokeAll, ih]

theorem invokeAll_effId_fst (mk : Nat → Ev) (ids : List Nat) :
    ∀ r : Registry, (invokeAll effId mk ids r).1 = r := by
  induction ids with
  | nil => intro r; rfl
  | cons id rest ih => intro r; simp [invokeAll, effId, ih]

theorem dispatch_effId_fst (phase : Bool) (v : Doc) (ks : List String) :
    ∀ (acc : List Nat) (r : Registry), (dispatch effId phase v ks acc r).1 = r := by
  induction ks with
  | nil => intro acc r; rfl
  | cons k rest ih => intro acc r; simp [dispatch, invokeAll_effId_fst, ih]

theorem dispatch_mem_shape (eff : Eff) (phase : Bool) (v : Doc) (ks : List String) :
    ∀ (acc : List Nat) (r : Registry) (e : Ev),
      e ∈ (dispatch eff phase v ks acc r).2 →
      ∃ id k, e = mkEv phase v k id ∧ k ∈ ks := by
  induction ks with
  | nil => intro acc r e he; simp [dispatch] at he
  | cons k rest ih =>
      intro acc r e he
      simp only [dispatch, List.mem_append] at he
      rcases he with he | he
      · rw [invokeAll_snd] at he
        rcases List.mem_map.mp he with ⟨id, _, rfl⟩
        exact ⟨id, k, rfl, by simp⟩
      · rcases ih _ _ e he with ⟨id, k₁, rfl, hk₁⟩
        exact ⟨id, k₁, rfl, by simp [hk₁]⟩

theorem patchStep_onEvents (arg : UpdateArg) (s : Store) :
    (patchStep arg s).onEvents = s.onEvents := by cases arg <;> rfl

theorem patchStep_defaults (arg : UpdateArg) (s : Store) :
    (patchStep arg s).defaultKeyBindings = s.defaultKeyBindings := by cases arg <;> rfl

theorem patchStep_old (arg : UpdateArg) (s : Store) :
    (patchStep arg s).oldKeyBindings = s.oldKeyBindings := by cases arg <;> rfl

theorem resetStep_defaults (keys : List String) (s : Store) :
    (resetStep keys s).defaultKeyBindings = s.defaultKeyBindings := by
  unfold resetStep; split <;> rfl

theorem resetStep_old (keys : List String) (s : Store) :
    (resetStep keys s).oldKeyBindings = s.oldKeyBindings := by
  unfold resetStep; split <;> rfl

theorem resetStep_nil_value (s : Store) :
    (resetStep [] s).value = s.defaultKeyBindings := rfl

theorem patchStep_flag (b : Bool) (s : Store) : patchStep (.flag b) s = s := rfl
theorem truthy_getKey_isSome (v : Doc) (k : String) (h : truthy (getKey v k) = true) :
    (lookupDoc v k).isSome = true := by
  unfold getKey at h
  cases hl : lookupDoc v k with
  | none => rw [hl] at h; simp [Option.getD, truthy] at h
  | some x => rfl

theorem keysOf_applyBindings (cmds : Cmds) (ks : List String) (v : Doc) :
    keysOf (applyBindings cmds ks v) = keysOf v := by
  induction ks generalizing v with
  | nil => rfl
  | cons k rest ih =>
      have hstep : applyBindings cmds (k :: rest) v =
          applyBindings cmds rest (applyBindingsStep cmds v k) := rfl
      rw [hstep, ih]
      simp only [applyBindingsStep]
      by_cases h₁ : cmds k = false ∨ truthy (getKey v k) = false
      · rw [if_pos h₁]
      · rw [if_neg h₁]
        by_cases h₂ : truthy (getProp (getKey v k) "key") = true
        · rw [if_pos h₂]
          apply keysOf_setKey
          apply truthy_getKey_isSome
          rcases not_or.mp h₁ with ⟨-, htr⟩
          simpa using htr
        · rw [if_neg h₂]

theorem applyBindings_id (cmds : Cmds) (ks : List String) (v : Doc)
    (h : ∀ k, cmds k = false ∨ truthy (getProp (getKey v k) "key") = false) :
    applyBindings cmds ks v = v := by
  induction ks with
  | nil => rfl
  | cons k rest ih =>
      have hstep : applyBindingsStep cmds v k = v := by
        simp only [applyBindingsStep]
        rcases h k with hc | hk
        · rw [if_pos (Or.inl hc)]
        · by_cases h₁ : cmds k = false ∨ truthy (getKey v k) = false
          · rw [if_pos h₁]
          · rw [if_neg h₁, if_neg (by simp [hk])]
      show applyBindings cmds rest (applyBindingsStep cmds v k) = v
      rw [hstep]
      exact ih

theorem update_value (eff : Eff) (cmds : Cmds) (arg : UpdateArg) (t sv : Bool)
    (s : Store) (w : World) :
    (update eff cmds arg t sv s w).1.value =
      applyBindings cmds (getChangedKeys (patchStep arg s)) (patchStep arg s).value := by
  simp only [update]
  by_cases hsv : sv <;> simp [hsv, save]

theorem update_defaults (eff : Eff) (cmds : Cmds) (arg : UpdateArg) (t sv : Bool)
    (s : Store) (w : World) :
    (update eff cmds arg t sv s w).1.defaultKeyBindings = s.defaultKeyBindings := by
  simp only [update]
  by_cases hsv : sv <;> cases arg <;> simp [hsv, save, patchStep]

theorem update_old_save (eff : Eff) (cmds : Cmds) (arg : UpdateArg) (t : Bool)
    (s : Store) (w : World) :
    (update eff cmds arg t true s w).1.oldKeyBindings =
      some (applyBindings cmds (getChangedKeys (patchStep arg s)) (patchStep arg s).value) := by
  simp [update, save]

theorem update_world_save (eff : Eff) (cmds : Cmds) (arg : UpdateArg) (t : Bool)
    (s : Store) (w : World) :
    (update eff cmds arg t true s w).2.1 =
      some (JVal.obj (JFields.ofList
        (applyBindings cmds (getChangedKeys (patchStep arg s)) (patchStep arg s).value))) := by
  simp [update, save]

theorem update_trace_save (eff : Eff) (cmds : Cmds) (arg : UpdateArg) (t : Bool)
    (s : Store) (w : World) :
    (update eff cmds arg t true s w).2.2 =
      ((dispatch eff true (patchStep arg s).value (getChangedKeys (patchStep arg s))
          ((lookupReg s.onEvents "update").getD []) (patchStep arg s).onEvents).2
        ++ [Ev.applied (getChangedKeys (patchStep arg s))])
      ++ Ev.saved ::
        ((if toastFlag arg t then [Ev.toasted] else [])
          ++ (dispatch eff false
                (applyBindings cmds (getChangedKeys (patchStep arg s)) (patchStep arg s).value)
                (getChangedKeys (patchStep arg s))
                ((lookupReg s.onEvents "update:after").getD [])
                (dispatch eff true (patchStep arg s).value (getChangedKeys (patchStep arg s))
                  ((lookupReg s.onEvents "update").getD []) (patchStep arg s).onEvents).1).2) := by
  simp [update, save, patchStep_onEvents]

theorem applied_mem_update_trace (eff : Eff) (cmds : Cmds) (arg : UpdateArg) (t : Bool)
    (s : Store) (w : World) :
    Ev.applied (getChangedKeys (patchStep arg s)) ∈ (update eff cmds arg t true s w).2.2 := by
  rw [update_trace_save]
  simp

theorem reset_value (eff : Eff) (cmds : Cmds) (keys : List String) (s : Store) (w : World) :
    (reset eff cmds keys s w).1.value =
      applyBindings cmds (getChangedKeys (resetStep keys s)) (resetStep keys s).value := by
  simp [reset, update_value, patchStep]

theorem reset_defaults (eff : Eff) (cmds : Cmds) (keys : List String) (s : Store) (w : World) :
    (reset eff cmds keys s w).1.defaultKeyBindings = s.defaultKeyBindings := by
  simp [reset, update_defaults, resetStep_defaults]

theorem reset_old (eff : Eff) (cmds : Cmds) (keys : List String) (s : Store) (w : World) :
    (reset eff cmds keys s w).1.oldKeyBindings = some (reset eff cmds keys s w).1.value := by
  simp [reset, update_old_save, update_value, patchStep]

theorem applied_mem_reset_trace (eff : Eff) (cmds : Cmds) (keys : List String)
    (s : Store) (w : World) :
    Ev.applied (getChangedKeys (resetStep keys s)) ∈ (reset eff cmds keys s w).2.2 := by
  simp only [reset]
  rw [List.mem_append]
  left
  have h := applied_mem_update_trace eff cmds (.flag false) true (resetStep keys s) w
  simpa [patchStep] using h

/-- C4: in every `update` call with `persist = true` (and listeners total,
as all embedded listeners are), the trace splits at a unique save event:
every first-loop listener invocation (`Ev.invoke`) precedes it, every
second-loop invocation (`Ev.invokeAfter`, the `update:after` and
`update:<key>:after` listeners) follows it, and when the after-listeners
run, the baseline and the persisted file both already equal the current
mapping (post-`applyBindings` normalization), so they never observe the
pre-persist state. -/
theorem update_before_save_after_order (eff : Eff) (cmds : Cmds) (arg : UpdateArg)
    (t : Bool) (s : Store) (w : World) :
    ∃ pre post : List Ev,
      (update eff cmds arg t true s w).2.2 = pre ++ Ev.saved :: post ∧
      (∀ e ∈ pre, (∀ id k x, e ≠ Ev.invokeAfter id k x) ∧ e ≠ Ev.saved) ∧
      (∀ e ∈ post, (∀ id k x, e ≠ Ev.invoke id k x) ∧ e ≠ Ev.saved) ∧
      (update eff cmds arg t true s w).1.oldKeyBindings =
        some (update eff cmds arg t true s w).1.value ∧
      (update eff cmds arg t true s w).2.1 =
        some (JVal.obj (JFields.ofList (update eff cmds arg t true s w).1.value)) := by
  refine ⟨_, _, update_trace_save eff cmds arg t s w, ?_, ?_, ?_, ?_⟩
  · intro e he
    rcases List.mem_append.mp he with he | he
    · rcases dispatch_mem_shape _ _ _ _ _ _ e he with ⟨id, k, rfl, -⟩
      exact ⟨fun id₁ k₁ x₁ => by simp [mkEv], by simp [mkEv]⟩
    · have he₁ : e = Ev.applied (getChangedKeys (patchStep arg s)) := by
        simpa using he
      subst he₁
      exact ⟨fun id₁ k₁ x₁ => by simp, by simp⟩
  · intro e he
    rcases List.mem_append.mp he with he | he
    · by_cases ht : toastFlag arg t = true
      · simp only [ht, if_true, List.mem_singleton] at he
        subst he
        exact ⟨fun id₁ k₁ x₁ => by simp, by simp⟩
      · simp only [Bool.not_eq_true] at ht
        simp [ht] at he
    · rcases dispatch_mem_shape _ _ _ _ _ _ e he with ⟨id, k, rfl, -⟩
      exact ⟨fun id₁ k₁ x₁ => by simp [mkEv], by simp [mkEv]⟩
  · rw [update_old_save, update_value]
  · rw [update_world_save, update_value]
theorem keysOf_resetFold (dflt : Doc) (ks : List String) :
    ∀ v : Doc, keysOf v = keysOf dflt →
      keysOf (ks.foldl
        (fun acc k =>
          if (lookupDoc dflt k).isSome then setKey acc k (getKey dflt k) else acc)
        v) = keysOf dflt := by
  induction ks with
  | nil => intro v h; exact h
  | cons k rest ih =>
      intro v h
      simp only [List.foldl_cons]
      by_cases hk : (lookupDoc dflt k).isSome = true
      · rw [if_pos hk]
        apply ih
        rw [keysOf_setKey]
        · exact h
        · rw [lookupDoc_isSome_iff, h, ← lookupDoc_isSome_iff]
          exact hk
      · rw [if_neg hk]
        exact ih v h
/-- C5: the key set of the current mapping always equals the key set of the
defaults: any `update` call (any patch, any flags, any editor command
table — the in-place normalization replaces descriptor internals, never
top-level keys) and any `reset` call (any key arguments) preserve the
invariant, only replacing values of existing keys. -/
theorem update_reset_preserve_keyset (eff : Eff) (cmds : Cmds) (arg : UpdateArg)
    (t sv : Bool) (ks : List String) (s : Store) (w w₁ : World)
    (h : keysOf s.value = keysOf s.defaultKeyBindings) :
    keysOf (update eff cmds arg t sv s w).1.value = keysOf s.defaultKeyBindings ∧
    keysOf (reset eff cmds ks s w₁).1.value = keysOf s.defaultKeyBindings := by
  constructor
  · rw [update_value, keysOf_applyBindings]
    cases arg with
    | none => exact h
    | patch d => simpa [patchStep, keysOf_applyPatch] using h
    | flag b => exact h
  · rw [reset_value, keysOf_applyBindings]
    unfold resetStep
    by_cases hk : ks.isEmpty = true
    · simp [hk]
    · simp only [hk, if_false]
      exact keysOf_resetFold s.defaultKeyBindings ks s.value h

theorem update_reset_preserve_keyset_witness :
    keysOf (update effId allCmds (.patch [("a", JVal.str "z")]) true true
        (freshStore [("a", JVal.num 1)]) Option.none).1.value =
      keysOf [("a", JVal.num 1)] ∧
    keysOf (reset effId allCmds ["a"] (freshStore [("a", JVal.num 1)])
        Option.none).1.value =
      keysOf [("a", JVal.num 1)] :=
  update_reset_preserve_keyset effId allCmds (.patch [("a", JVal.str "z")]) true true
    ["a"] (freshStore [("a", JVal.num 1)]) Option.none Option.none rfl

/-- C6: the changed-key set is exactly the set of baseline keys whose
baseline value differs from the current value (structural equality on the
embedded values); keys absent from the baseline are never reported, an
undefined baseline yields no changes, and on the example from the spec the
result is exactly `["b"]`. -/
theorem getChangedKeys_spec (s : Store) (b : Doc) :
    (s.oldKeyBindings = Option.none → getChangedKeys s = []) ∧
    (s.oldKeyBindings = some b →
      ∀ k, k ∈ getChangedKeys s ↔ k ∈ keysOf b ∧ getKey b k ≠ getKey s.value k) ∧
    getChangedKeys exDiffStore = ["b"] := by
  refine ⟨getChangedKeys_of_none s, fun h k => mem_getChangedKeys s b h k, ?_⟩
  decide

theorem getChangedKeys_spec_witness :
    ("b" ∈ getChangedKeys exDiffStore ↔
      "b" ∈ keysOf exBaseline ∧
        getKey exBaseline "b" ≠ getKey exDiffStore.value "b") ∧
    getChangedKeys exDiffStore = ["b"] :=
  ⟨(getChangedKeys_spec exDiffStore exBaseline).2.1 rfl "b",
   (getChangedKeys_spec exDiffStore exBaseline).2.2⟩

/-- C8 (amended): `reset()` with no arguments is idempotent provided, for
every key, either no editor command is registered under that name or the
default descriptor for it carries no truthy legacy `key` field (so the
editor-sync normalization leaves the mapping untouched): then each call
yields a mapping structurally equal to the defaults and the internal diff
of the second call is empty, the baseline already matching. -/
theorem reset_idempotent (eff : Eff) (cmds : Cmds) (s : Store) (w : World)
    (hleg : ∀ k, cmds k = false ∨
      truthy (getProp (getKey s.defaultKeyBindings k) "key") = false) :
    (reset eff cmds [] s w).1.value = s.defaultKeyBindings ∧
    (reset eff cmds [] (reset eff cmds [] s w).1
        (reset eff cmds [] s w).2.1).1.value = s.defaultKeyBindings ∧
    Ev.applied [] ∈ (reset eff cmds [] (reset eff cmds [] s w).1
        (reset eff cmds [] s w).2.1).2.2 := by
  have h₁ : (reset eff cmds [] s w).1.value = s.defaultKeyBindings := by
    rw [reset_value, resetStep_nil_value]
    exact applyBindings_id cmds _ s.defaultKeyBindings hleg
  have hdef : (reset eff cmds [] s w).1.defaultKeyBindings = s.defaultKeyBindings :=
    reset_defaults eff cmds [] s w
  have hold : (reset eff cmds [] s w).1.oldKeyBindings = some s.defaultKeyBindings := by
    rw [reset_old, h₁]
  have hch : getChangedKeys (resetStep [] (reset eff cmds [] s w).1) = [] := by
    apply getChangedKeys_self
    rw [resetStep_old, hold, resetStep_nil_value, hdef]
  refine ⟨h₁, ?_, ?_⟩
  · rw [reset_value, resetStep_nil_value, hdef, hch]
    rfl
  · have h := applied_mem_reset_trace eff cmds [] (reset eff cmds [] s w).1
      (reset eff cmds [] s w).2.1
    rw [hch] at h
    exact h

/-- C8 counterexample: over defaults `{save: {key: "Ctrl-S"}}` with the
`save` command registered and a baseline that differs from the defaults,
the first `reset()` hands the changed key to `applyBindings`, which
rewrites the descriptor in place to `{bindKey: {win: "Ctrl-S"}}` before the
save — so the mapping is not structurally equal to the defaults — and the
internal diff of the second call is `["save"]`, not empty. -/
theorem reset_not_idempotent_with_legacy_key :
    (reset effId allCmds [] exLegacyStore Option.none).1.value =
      [("save", JVal.obj (.cons "bindKey"
        (JVal.obj (.cons "win" (JVal.str "Ctrl-S") .nil)) .nil))] ∧
    (reset effId allCmds [] exLegacyStore Option.none).1.value ≠ legacyDefaults ∧
    Ev.applied ["save"] ∈
      (reset effId allCmds []
        (reset effId allCmds [] exLegacyStore Option.none).1
        (reset effId allCmds [] exLegacyStore Option.none).2.1).2.2 := by
  decide

theorem reset_idempotent_witness :
    (reset effId allCmds [] exPlainStore Option.none).1.value = plainDefaults ∧
    (reset effId allCmds []
        (reset effId allCmds [] exPlainStore Option.none).1
        (reset effId allCmds [] exPlainStore Option.none).2.1).1.value =
      plainDefaults ∧
    Ev.applied [] ∈
      (reset effId allCmds []
        (reset effId allCmds [] exPlainStore Option.none).1
        (reset effId allCmds [] exPlainStore Option.none).2.1).2.2 :=
  reset_idempotent effId allCmds exPlainStore Option.none
    (fun k => by
      by_cases h : "save" = k
      · subst h
        exact Or.inr rfl
      · exact Or.inr (by simp [getKey, lookupDoc, h, getProp, truthy]))

/-- C9: when the persisted file exists but its content parses to nothing
usable (falsy), `init` returns silently: only the initialization flag is
set, the mapping stays at the in-memory defaults, no diff baseline is
established, the storage is untouched and no listener fires. -/
theorem init_aborts_on_unusable_doc (eff : Eff) (cmds : Cmds) (defaults : Doc)
    (doc : JVal) (h : truthy doc = false) :
    init eff cmds (freshStore defaults) (some doc) =
      ({ freshStore defaults with initDone := true }, some doc, []) := by
  simp [init, freshStore, h]

theorem init_aborts_on_unusable_doc_witness :
    truthy JVal.null = false ∧
    init effId noCmds (freshStore [("a", JVal.num 1)]) (some JVal.null) =
      ({ freshStore [("a", JVal.num 1)] with initDone := true }, some JVal.null, []) :=
  ⟨rfl, init_aborts_on_unusable_doc effId noCmds [("a", JVal.num 1)] JVal.null rfl⟩

/-- C1 (code behavior at the failing input): with defaults `{a: 1}`, an
`update` with `persist = true` stores `{a: 2}`, but re-initializing a fresh
store against that storage resets the mapping to the defaults `{a: 1}` and
even overwrites the storage with the defaults — the healed persisted
mapping is discarded, so the round-trip of the claim fails. -/
theorem init_discards_persisted_mapping :
    (update effId noCmds (.patch [("a", JVal.num 2)]) true true
        (init effId noCmds (freshStore [("a", JVal.num 1)]) Option.none).1
        (init effId noCmds (freshStore [("a", JVal.num 1)]) Option.none).2.1).2.1 =
      some (JVal.obj (.cons "a" (JVal.num 2) .nil)) ∧
    (update effId noCmds (.patch [("a", JVal.num 2)]) true true
        (init effId noCmds (freshStore [("a", JVal.num 1)]) Option.none).1
        (init effId noCmds (freshStore [("a", JVal.num 1)]) Option.none).2.1).1.value =
      [("a", JVal.num 2)] ∧
    (init effId noCmds (freshStore [("a", JVal.num 1)])
        (some (JVal.obj (.cons "a" (JVal.num 2) .nil)))).1.value =
      [("a", JVal.num 1)] ∧
    (init effId noCmds (freshStore [("a", JVal.num 1)])
        (some (JVal.obj (.cons "a" (JVal.num 2) .nil)))).2.1 =
      some (JVal.obj (.cons "a" (JVal.num 1) .nil)) := by
  decide

/-- C2 (code behavior at the failing input): with generic listener `0` and
`update:a` listener `1`, changing keys `a` then `c` invokes, for key `c`,
both listener `0` and listener `1` (the key-specific listener pushed for
`a` stays in the invocation array) — the clause of the claim that L alone
fires with the value of c fails. -/
theorem update_specific_listener_fires_for_other_key :
    (update effId noCmds .none false false exFanoutStore Option.none).2.2 =
      [Ev.invoke 0 "a" (JVal.num 2), Ev.invoke 1 "a" (JVal.num 2),
       Ev.invoke 0 "c" (JVal.num 3), Ev.invoke 1 "c" (JVal.num 3),
       Ev.applied ["a", "c"]] := by
  decide

/-- C3 (code behavior at the failing input): with defaults `{a: 1}` and a
persisted document `{a: "x"}` whose value has a different runtime type, the
healing loop leaves the persisted value untouched (its `typeof` comparison
reads the default on both sides), so no healing happens. -/
theorem heal_ignores_persisted_types :
    jtypeof (JVal.str "x") ≠ jtypeof (JVal.num 1) ∧
    heal [("a", JVal.num 1)] (JVal.obj (.cons "a" (JVal.str "x") .nil)) =
      JVal.obj (.cons "a" (JVal.str "x") .nil) := by
  decide

/-- C7 counterexample: an `update` whose patch contains only the unknown
key `zzz` leaves the mapping unchanged, yet the computed changed-key set
(the argument of the `applyBindings` step) is `["a"]`, not empty, because
the mapping already differed from the baseline before the call. -/
theorem update_unknown_patch_nonempty_diff :
    lookupDoc exDriftStore.value "zzz" = Option.none ∧
    (update effId noCmds (.patch [("zzz", JVal.num 1)]) false false exDriftStore
        Option.none).1.value = exDriftStore.value ∧
    (update effId noCmds (.patch [("zzz", JVal.num 1)]) false false exDriftStore
        Option.none).2.2 = [Ev.applied ["a"]] := by
  decide

/-- C7 (amended): a patch containing only keys absent from the mapping
leaves the mapping unchanged through the patch step, and — provided the
mapping equals the diff baseline when the call starts (as after any
persisted update) — the computed changed-key set is empty and the whole
call leaves the mapping unchanged (with an empty changed set, the
editor-sync normalization also touches nothing); in general every patch
key that does exist in the mapping is overwritten with the value from the
patch and no other key of the mapping is modified by the patch step. -/
theorem update_patch_semantics (eff : Eff) (cmds : Cmds) (t sv : Bool)
    (s : Store) (w : World) (patch : Doc) (hnd : (keysOf patch).Nodup) :
    ((∀ k, k ∈ keysOf patch → lookupDoc s.value k = Option.none) →
      applyPatch s.value patch = s.value ∧
      (s.oldKeyBindings = some s.value →
        getChangedKeys (patchStep (.patch patch) s) = [] ∧
        (update eff cmds (.patch patch) t sv s w).1.value = s.value)) ∧
    (∀ k, k ∈ keysOf patch → (lookupDoc s.value k).isSome = true →
      lookupDoc (applyPatch s.value patch) k = lookupDoc patch k) ∧
    (∀ k, k ∉ keysOf patch →
      lookupDoc (applyPatch s.value patch) k = lookupDoc s.value k) := by
  refine ⟨?_, ?_, ?_⟩
  · intro hunk
    have hv : applyPatch s.value patch = s.value := applyPatch_unknown patch s.value hunk
    refine ⟨hv, ?_⟩
    intro hold
    have hch : getChangedKeys (patchStep (.patch patch) s) = [] := by
      apply getChangedKeys_self
      simpa [patchStep, hv] using hold
    refine ⟨hch, ?_⟩
    rw [update_value, hch]
    show (patchStep (.patch patch) s).value = s.value
    simpa [patchStep] using hv
  · exact fun k hk hv => lookupDoc_applyPatch_mem patch s.value k hnd hk hv
  · exact fun k hk => lookupDoc_applyPatch_not_mem patch s.value k hk

theorem update_patch_semantics_witness :
    applyPatch exCleanStore.value [("zzz", JVal.num 5)] = exCleanStore.value ∧
    getChangedKeys (patchStep (.patch [("zzz", JVal.num 5)]) exCleanStore) = [] ∧
    (update effId allCmds (.patch [("zzz", JVal.num 5)]) false false exCleanStore
        Option.none).1.value = exCleanStore.value :=
  ⟨((update_patch_semantics effId allCmds false false exCleanStore Option.none
      [("zzz", JVal.num 5)] (by decide)).1 (by decide)).1,
   ((update_patch_semantics effId allCmds false false exCleanStore Option.none
      [("zzz", JVal.num 5)] (by decide)).1 (by decide)).2 rfl⟩
theorem evName_ne_update (phase : Bool) (k : String) : evName phase k ≠ "update" := by
  cases phase with
  | true =>
      show "update:" ++ k ≠ "update"
      intro h
      have h₁ := congrArg String.length h
      rw [String.length_append] at h₁
      have h₂ : "update:".length = 7 := rfl
      have h₃ : "update".length = 6 := rfl
      omega
  | false =>
      show "update:" ++ k ++ ":after" ≠ "update"
      intro h
      have h₁ := congrArg String.length h
      rw [String.length_append, String.length_append] at h₁
      have h₂ : "update:".length = 7 := rfl
      have h₃ : ":after".length = 6 := rfl
      have h₄ : "update".length = 6 := rfl
      omega

theorem evName_true_ne_updateAfter (k : String) (hk : k ≠ "after") :
    evName true k ≠ "update:after" := by
  show "update:" ++ k ≠ "update:after"
  intro h
  apply hk
  have hd := congrArg String.data (h.trans (rfl : "update:after" = "update:" ++ "after"))
  simp only [String.data_append] at hd
  exact String.ext (List.append_cancel_left hd)

theorem evName_false_ne_updateAfter (k : String) :
    evName false k ≠ "update:after" := by
  show "update:" ++ k ++ ":after" ≠ "update:after"
  intro h
  have h₁ := congrArg String.length h
  rw [String.length_append, String.length_append] at h₁
  have h₂ : "update:".length = 7 := rfl
  have h₃ : ":after".length = 6 := rfl
  have h₄ : "update:after".length = 12 := rfl
  omega

theorem invokeAll_fst_regEquiv (eff : Eff) (heff : genericOnly eff) (mk : Nat → Ev)
    (ids : List Nat) :
    ∀ r r₁ : Registry, regEquiv r r₁ → regEquiv (invokeAll eff mk ids r).1 r₁ := by
  induction ids with
  | nil => intro r r₁ h; exact h
  | cons id rest ih =>
      intro r r₁ h
      simp only [invokeAll]
      apply ih
      intro e h₁ h₂
      rw [heff id r e h₁ h₂]
      exact h e h₁ h₂

theorem dispatch_trace_genericOnly (eff : Eff) (heff : genericOnly eff)
    (phase : Bool) (v : Doc) :
    ∀ ks : List String,
      (∀ k, k ∈ ks → evName phase k ≠ "update" ∧ evName phase k ≠ "update:after") →
      ∀ (acc : List Nat) (r r₁ : Registry), regEquiv r r₁ →
      (dispatch eff phase v ks acc r).2 = (dispatch effId phase v ks acc r₁).2 ∧
      regEquiv (dispatch eff phase v ks acc r).1 (dispatch effId phase v ks acc r₁).1 := by
  intro ks
  induction ks with
  | nil => intro _ acc r r₁ h; exact ⟨rfl, h⟩
  | cons k rest ih =>
      intro hks acc r r₁ h
      have hk := hks k (by simp)
      have hlook : lookupReg r (evName phase k) = lookupReg r₁ (evName phase k) :=
        h _ hk.1 hk.2
      have hrest : ∀ k₁, k₁ ∈ rest →
          evName phase k₁ ≠ "update" ∧ evName phase k₁ ≠ "update:after" :=
        fun k₁ hk₁ => hks k₁ (by simp [hk₁])
      simp only [dispatch, hlook]
      have hiv : regEquiv (invokeAll eff (mkEv phase v k)
          (match lookupReg r₁ (evName phase k) with
            | some l => acc ++ l
            | none => acc) r).1
          (invokeAll effId (mkEv phase v k)
            (match lookupReg r₁ (evName phase k) with
              | some l => acc ++ l
              | none => acc) r₁).1 := by
        rw [invokeAll_effId_fst]
        exact invokeAll_fst_regEquiv eff heff _ _ r r₁ h
      rcases ih hrest _ _ _ hiv with ⟨htr, hreg⟩
      refine ⟨?_, hreg⟩
      rw [invokeAll_snd, invokeAll_snd, htr]
/-- C10: the generic `update`/`update:after` listener lists are snapshotted
when `update` starts: a listener whose only registry mutations touch those
two generic lists leaves the event trace of the call exactly as if no
mutation happened (so additions/removals of generic listeners during
dispatch do not affect which listeners fire in that call; the side
condition excludes a binding key literally named `after`, whose specific
event name collides with the generic one).  By contrast, the key-specific
lists are read live: in the concrete run, listener `0` adds listener `7` to
`update:c` while key `a` is dispatched, and `7` fires for key `c` in the
same call. -/
theorem generic_snapshot_specific_live (eff : Eff) (cmds : Cmds) (arg : UpdateArg)
    (t sv : Bool) (s : Store) (w : World) (heff : genericOnly eff)
    (hkeys : "after" ∉ getChangedKeys (patchStep arg s)) :
    (update eff cmds arg t sv s w).2.2 = (update effId cmds arg t sv s w).2.2 ∧
    (update liveAddEff noCmds .none false false exLiveStore Option.none).2.2 =
      [Ev.invoke 0 "a" (JVal.num 2), Ev.invoke 0 "c" (JVal.num 3),
       Ev.invoke 7 "c" (JVal.num 3), Ev.applied ["a", "c"]] := by
  constructor
  · have hks₁ : ∀ k, k ∈ getChangedKeys (patchStep arg s) →
        evName true k ≠ "update" ∧ evName true k ≠ "update:after" := by
      intro k hk
      refine ⟨evName_ne_update true k, evName_true_ne_updateAfter k ?_⟩
      intro hf
      subst hf
      exact hkeys hk
    have hks₂ : ∀ k, k ∈ getChangedKeys (patchStep arg s) →
        evName false k ≠ "update" ∧ evName false k ≠ "update:after" :=
      fun k _ => ⟨evName_ne_update false k, evName_false_ne_updateAfter k⟩
    have hrefl : regEquiv (patchStep arg s).onEvents (patchStep arg s).onEvents :=
      fun e h₁ h₂ => rfl
    obtain ⟨h₁, hreg₁⟩ := dispatch_trace_genericOnly eff heff true
      (patchStep arg s).value (getChangedKeys (patchStep arg s)) hks₁
      ((lookupReg s.onEvents "update").getD []) (patchStep arg s).onEvents
      (patchStep arg s).onEvents hrefl
    obtain ⟨h₂, -⟩ := dispatch_trace_genericOnly eff heff false
      (applyBindings cmds (getChangedKeys (patchStep arg s)) (patchStep arg s).value)
      (getChangedKeys (patchStep arg s)) hks₂
      ((lookupReg s.onEvents "update:after").getD [])
      (dispatch eff true (patchStep arg s).value (getChangedKeys (patchStep arg s))
        ((lookupReg s.onEvents "update").getD []) (patchStep arg s).onEvents).1
      (dispatch effId true (patchStep arg s).value (getChangedKeys (patchStep arg s))
        ((lookupReg s.onEvents "update").getD []) (patchStep arg s).onEvents).1
      hreg₁
    by_cases hsv : sv = true
    · subst hsv
      simp only [update, save]
      simp [h₁, h₂]
    · simp only [Bool.not_eq_true] at hsv
      subst hsv
      simp only [update, save]
      simp [h₁, h₂]
  · decide

theorem lookupReg_setReg_ne (r : Registry) (e e₁ : String) (l : List Nat)
    (h : e₁ ≠ e) : lookupReg (setReg r e l) e₁ = lookupReg r e₁ := by
  induction r with
  | nil => simp [setReg, lookupReg, Ne.symm h]
  | cons p rest ih =>
      obtain ⟨e₂, l₂⟩ := p
      by_cases h₂ : e₂ = e
      · subst h₂
        simp [setReg, lookupReg, Ne.symm h, fun hf : e₂ = e₁ => h (hf ▸ rfl)]
      · by_cases h₁ : e₂ = e₁
        · simp [setReg, h₂, lookupReg, h₁, h]
        · simp [setReg, h₂, lookupReg, h₁, ih]

theorem killGenericEff_genericOnly : genericOnly killGenericEff :=
  fun _ r e h₁ _ => lookupReg_setReg_ne r "update" e [] h₁

theorem generic_snapshot_specific_live_witness :
    (update killGenericEff noCmds .none false false exLiveStore Option.none).2.2 =
      (update effId noCmds .none false false exLiveStore Option.none).2.2 ∧
    (update liveAddEff noCmds .none false false exLiveStore Option.none).2.2 =
      [Ev.invoke 0 "a" (JVal.num 2), Ev.invoke 0 "c" (JVal.num 3),
       Ev.invoke 7 "c" (JVal.num 3), Ev.applied ["a", "c"]] :=
  generic_snapshot_specific_live killGenericEff noCmds .none false false exLiveStore
    Option.none killGenericEff_genericOnly (by decide)
